import Mathlib

/-!
Verification development for the recovercheck static analyzer
(package recovercheck, file recovercheck.go).

The analyzer walks Go syntax trees, seeds a map from function name to
"body contains recover" (analyzeFunction), then classifies every go
statement (analyzeGoroutine) and every errgroup style .Go call
(analyzeErrgroupCall), reporting a diagnostic for launches it cannot
prove safe.  Cross package references are resolved on demand by
re-parsing the file that declares the referenced symbol
(analyzeCrossPackageFunction / analyzeFunctionFromPosition), memoized in
the same map.

The embedding below models the Go AST fragment the analyzer inspects,
the analyzer state (the RecoverFunctions map, the reported diagnostics,
and ghost logs recording every table write, every cross package
resolution result, and every loader invocation), and the recursive
traversal performed through ast.Inspect in findRecoverCall.  The
traversal is written as one function over a task type, structurally
recursive on a fuel parameter; fuel exhaustion is represented by the
value none, and a totality theorem shows that on inputs whose re-parsed
files carry only unresolvable (fresh) identifiers a computable fuel
bound makes the whole run complete.
-/

namespace Recovercheck

/- Go AST fragment inspected by the analyzer.  Identifiers carry a node
identity (a number standing for the pointer identity of the ast.Ident
node) because the type information map Pass.TypesInfo.Uses is keyed by
node identity: identifiers created by re-parsing an external file are
fresh nodes and are absent from that map. -/
mutual

/-- Expressions: identifier, selector, function literal, call, other. -/
inductive Expr where
  | ident (id : Nat) (name : String)
  | selector (x : Expr) (sel : String)
  | funcLit (body : List Stmt)
  | call (c : CallE)
  | basic

/-- CallExpr: function expression and arguments. -/
inductive CallE where
  | mk (fn : Expr) (args : List Expr)

/-- Statements inspected by the traversal. -/
inductive Stmt where
  | exprS (e : Expr)
  | deferS (call : Option CallE)
  | goS (pos : Nat) (call : Option CallE)
  | block (stmts : List Stmt)
  | ifS (ini : Option Stmt) (cond : Expr) (thenB : List Stmt) (els : Option Stmt)
  | assignS (lhs rhs : List Expr)
  | returnS (res : List Expr)
  | otherS

end

/-- Fun component of a CallExpr (call.Fun). -/
def CallE.fn : CallE → Expr
  | .mk f _ => f

/-- Args component of a CallExpr (call.Args). -/
def CallE.args : CallE → List Expr
  | .mk _ a => a

/-- FuncDecl: the analyzer reads funcDecl.Name (nil possible) and
funcDecl.Body (nil possible, e.g. an assembly stub).  Receivers are not
consulted by the analyzer, so they are not modelled; same named
declarations arise in Go as methods on distinct receivers. -/
structure FuncDecl where
  name : Option String
  body : Option (List Stmt)

/-- GoStmt: position and the launched CallExpr (checked against nil). -/
structure GoStmtN where
  pos : Nat
  call : Option CallE

/-- A collected errgroup candidate call: its position and the CallExpr. -/
structure ECall where
  pos : Nat
  call : CallE

/-- One parsed file, as produced by parser.ParseFile: its function
declarations in source order. -/
structure GoFile where
  decls : List FuncDecl

/-- External collaborators of the analyzer, fixed for one run:
uses models Pass.TypesInfo.Uses restricted to PkgName objects (node
identity of an identifier to the path of the package it denotes);
scopeLookup models pkg.Scope().Lookup restricted to functions (package
path and symbol name to the declared token.Pos); tokPosValid models
pos.IsValid on the token.Pos; posInfoValid models position.IsValid on
the fset.Position; parseFile models parser.ParseFile on the file
containing a position, none meaning a parse error. -/
structure Env where
  uses : Nat → Option String
  scopeLookup : String → String → Option Nat
  tokPosValid : Nat → Bool
  posInfoValid : Nat → Bool
  parseFile : Nat → Option GoFile

/-- Analyzer state: table is the RecoverFunctions map (funcName or
pkg.Symbol key to hasRecover) and diags the diagnostics reported through
Pass.Reportf, in order.  The remaining three fields are ghost
instrumentation, absent from the source and never branched on: storeLog
records every map assignment, resolveLog every value returned by
isCrossPackageRecoveryFunction for a key, loadLog every invocation of
the cross module loader analyzeCrossPackageFunction keyed as in the
table. -/
structure AState where
  table : List (String × Bool)
  diags : List (Nat × String)
  storeLog : List (String × Bool)
  resolveLog : List (String × Bool)
  loadLog : List String
deriving DecidableEq, Repr

/-- The empty analyzer state, as built in run. -/
def state0 : AState := ⟨[], [], [], [], []⟩

/-- Lookup in the RecoverFunctions map. -/
def tlookup : List (String × Bool) → String → Option Bool
  | [], _ => none
  | (k, v) :: t, key => if k == key then some v else tlookup t key

/-- Map assignment m[key] = v: replaces an existing binding, otherwise
appends. -/
def tinsert : List (String × Bool) → String → Bool → List (String × Bool)
  | [], key, v => [(key, v)]
  | (k, w) :: t, key, v =>
      if k == key then (key, v) :: t else (k, w) :: tinsert t key v

/-- Map assignment on the state, with the ghost store log. -/
def storeKey (s : AState) (key : String) (v : Bool) : AState :=
  { s with table := tinsert s.table key v, storeLog := s.storeLog ++ [(key, v)] }

/-- Pass.Reportf. -/
def report (s : AState) (pos : Nat) (msg : String) : AState :=
  { s with diags := s.diags ++ [(pos, msg)] }

/-- Ghost log of a resolution result of isCrossPackageRecoveryFunction. -/
def logResolve (s : AState) (key : String) (v : Bool) : AState :=
  { s with resolveLog := s.resolveLog ++ [(key, v)] }

/-- Ghost log of an invocation of the cross module loader. -/
def logLoad (s : AState) (key : String) : AState :=
  { s with loadLog := s.loadLog ++ [key] }

/-- isRecoverCall: a call expression is a recover call iff its Fun is a
bare identifier spelled recover. -/
def isRecoverCall (c : CallE) : Bool :=
  match c.fn with
  | .ident _ name => name == "recover"
  | _ => false

/-- isErrgroupGoCall: any method call whose selector name is Go, with no
type check on the receiver. -/
def isErrgroupGoCall (c : CallE) : Bool :=
  match c.fn with
  | .selector _ sel => sel == "Go"
  | _ => false

/-- isRecoveryFunction: memoized lookup of a local name; unknown names
are assumed unsafe. -/
def isRecoveryFunction (s : AState) (funcName : String) : Bool :=
  match tlookup s.table funcName with
  | some hasRecover => hasRecover
  | none => false

/-- The ast.Inspect loop of analyzeFunctionFromPosition: the callback
stores every FuncDecl whose name matches and returns false, which only
prunes the children of that declaration; the traversal still visits the
remaining declarations, so a later match overwrites an earlier one and
the last matching declaration wins. -/
def findFuncDecl (decls : List FuncDecl) (funcName : String) : Option FuncDecl :=
  decls.foldl (fun acc fd => if fd.name == some funcName then some fd else acc) none

/-- Propagation of the shared found flag of the ast.Inspect closure in
findRecoverCall: none means the fuel ran out, a found result stops the
traversal (statements after it are skipped), and a not-found result
continues with the updated analyzer state. -/
def seqFound (o : Option (Bool × AState)) (k : AState → Option (Bool × AState)) :
    Option (Bool × AState) :=
  match o with
  | none => none
  | some (true, s1) => some (true, s1)
  | some (false, s1) => k s1

/-- Tail of isCrossPackageRecoveryFunction after a cache miss: the
computed value is stored under the key (the single map assignment of
that function, executed after the computation finished) and returned;
the ghost resolve log records the returned value. -/
def storeResolve (key : String) : Option (Bool × AState) → Option (Bool × AState)
  | none => none
  | some (hasRecovery, s1) =>
      some (hasRecovery, logResolve (storeKey s1 key hasRecovery) key hasRecovery)

/-- Tasks of the recursive analysis.  The first six mirror the
ast.Inspect traversal of findRecoverCall rooted at an expression, a
CallExpr, an expression list, a statement, a statement list, and a
BlockStmt; defR mirrors isDeferredRecovery, cross mirrors
isCrossPackageRecoveryFunction, acpf mirrors
analyzeCrossPackageFunction, affp mirrors analyzeFunctionFromPosition. -/
inductive VTask where
  | e (e : Expr)
  | c (c : CallE)
  | es (l : List Expr)
  | s (s : Stmt)
  | ss (l : List Stmt)
  | blk (l : List Stmt)
  | defR (c : CallE)
  | cross (x : Expr) (funcName : String)
  | acpf (pkgPath funcName : String)
  | affp (funcName : String) (pos : Nat)

/-- The recursive core of the analyzer, in explicit state passing style.
The result some (b, s) is the boolean computed by the corresponding
source function together with the updated analyzer state; none means the
fuel was exhausted, i.e. the modelled recursion exceeded the given
depth.  Fuel decreases at every recursive call, so termination is
structural; every source level behavior is reproduced at each arm:

the e, c, es, s, ss, blk arms are the ast.Inspect traversal of
findRecoverCall: a CallExpr node that is a recover call, or a DeferStmt
node accepted by isDeferredRecovery, sets found and stops; a BlockStmt
node first scans its statement list through recursive findRecoverCall
calls and, when nothing was found, the traversal then descends into the
same statements again; all other nodes are just descended through in
source order, with the early exit of the shared found flag. -/
def visit (env : Env) : Nat → VTask → AState → Option (Bool × AState)
  | 0, _, _ => none
  | n + 1, t, s0 =>
    match t with
    | .e (.ident _ _) => some (false, s0)
    | .e (.selector x _) => visit env n (.e x) s0
    | .e (.funcLit body) => visit env n (.blk body) s0
    | .e (.call c) => visit env n (.c c) s0
    | .e .basic => some (false, s0)
    | .c c =>
        if isRecoverCall c then some (true, s0)
        else seqFound (visit env n (.e c.fn) s0) (fun s1 => visit env n (.es c.args) s1)
    | .es [] => some (false, s0)
    | .es (e :: t) =>
        seqFound (visit env n (.e e) s0) (fun s1 => visit env n (.es t) s1)
    | .s (.exprS e) => visit env n (.e e) s0
    | .s (.deferS none) => some (false, s0)
    | .s (.deferS (some c)) =>
        seqFound (visit env n (.defR c) s0) (fun s1 => visit env n (.c c) s1)
    | .s (.goS _ none) => some (false, s0)
    | .s (.goS _ (some c)) => visit env n (.c c) s0
    | .s (.block l) => visit env n (.blk l) s0
    | .s (.ifS ini cond thenB els) =>
        seqFound (match ini with
                  | some i => visit env n (.s i) s0
                  | none => some (false, s0)) (fun s1 =>
          seqFound (visit env n (.e cond) s1) (fun s2 =>
            seqFound (visit env n (.blk thenB) s2) (fun s3 =>
              match els with
              | some e => visit env n (.s e) s3
              | none => some (false, s3))))
    | .s (.assignS lhs rhs) =>
        seqFound (visit env n (.es lhs) s0) (fun s1 => visit env n (.es rhs) s1)
    | .s (.returnS res) => visit env n (.es res) s0
    | .s .otherS => some (false, s0)
    | .ss [] => some (false, s0)
    | .ss (st :: t) =>
        seqFound (visit env n (.s st) s0) (fun s1 => visit env n (.ss t) s1)
    | .blk l =>
        seqFound (visit env n (.ss l) s0) (fun s1 => visit env n (.ss l) s1)
    | .defR c =>
        -- isDeferredRecovery: direct defer recover(), then a deferred
        -- function literal, then a deferred named function, then a
        -- deferred pkg.Function call.
        if isRecoverCall c then some (true, s0)
        else
          match c.fn with
          | .funcLit body => visit env n (.blk body) s0
          | .ident _ name => some (isRecoveryFunction s0 name, s0)
          | .selector x sel => visit env n (.cross x sel) s0
          | _ => some (false, s0)
    | .cross x funcName =>
        -- isCrossPackageRecoveryFunction: key by the package identifier
        -- text; cached values are returned; otherwise the loader runs
        -- when type information resolves the identifier to a package,
        -- and the result is stored after the computation finishes.
        match x with
        | .ident id pkgName =>
            let key := pkgName ++ "." ++ funcName
            match tlookup s0.table key with
            | some v => some (v, logResolve s0 key v)
            | none =>
                storeResolve key
                  (match env.uses id with
                   | some pkgPath =>
                       visit env n (.acpf pkgPath funcName) (logLoad s0 key)
                   | none => some (false, s0))
        | _ => some (false, s0)
    | .acpf pkgPath funcName =>
        -- analyzeCrossPackageFunction: look the symbol up in the package
        -- scope, check the declared position, then analyze from it.
        match env.scopeLookup pkgPath funcName with
        | some pos =>
            if env.tokPosValid pos then visit env n (.affp funcName pos) s0
            else some (false, s0)
        | none => some (false, s0)
    | .affp funcName pos =>
        -- analyzeFunctionFromPosition: invalid position or parse failure
        -- yields false; otherwise the matching declaration found by the
        -- ast.Inspect loop is analyzed when it has a body.
        if env.posInfoValid pos then
          match env.parseFile pos with
          | some file =>
              match findFuncDecl file.decls funcName with
              | some fd =>
                  match fd.body with
                  | some body => visit env n (.blk body) s0
                  | none => some (false, s0)
              | none => some (false, s0)
          | none => some (false, s0)
        else some (false, s0)

/-- containsRecover (equal to findRecoverCall) applied to a function
body, i.e. ast.Inspect rooted at the BlockStmt node of the body. -/
def containsRecover (env : Env) (fuel : Nat) (body : List Stmt) (s : AState) :
    Option (Bool × AState) :=
  visit env fuel (.blk body) s

/-- findRecoverCall rooted at a single statement node. -/
def findRecoverCallStmt (env : Env) (fuel : Nat) (st : Stmt) (s : AState) :
    Option (Bool × AState) :=
  visit env fuel (.s st) s

/-- isDeferredRecovery on the CallExpr of a defer statement. -/
def isDeferredRecovery (env : Env) (fuel : Nat) (c : CallE) (s : AState) :
    Option (Bool × AState) :=
  visit env fuel (.defR c) s

/-- isCrossPackageRecoveryFunction on a selector with operand x and
selected name funcName. -/
def isCrossPackageRecoveryFunction (env : Env) (fuel : Nat) (x : Expr)
    (funcName : String) (s : AState) : Option (Bool × AState) :=
  visit env fuel (.cross x funcName) s

/-- analyzeCrossPackageFunction. -/
def analyzeCrossPackageFunction (env : Env) (fuel : Nat)
    (pkgPath funcName : String) (s : AState) : Option (Bool × AState) :=
  visit env fuel (.acpf pkgPath funcName) s

/-- analyzeFunctionFromPosition. -/
def analyzeFunctionFromPosition (env : Env) (fuel : Nat) (funcName : String)
    (pos : Nat) (s : AState) : Option (Bool × AState) :=
  visit env fuel (.affp funcName pos) s

/-- hasRecoveryLogic: dispatch on the shape of the Fun of the launched
call: function literal, bare identifier, selector; anything else is
unsafe. -/
def hasRecoveryLogic (env : Env) (fuel : Nat) (c : CallE) (s : AState) :
    Option (Bool × AState) :=
  match c.fn with
  | .funcLit body => containsRecover env fuel body s
  | .ident _ name => some (isRecoveryFunction s name, s)
  | .selector x sel => isCrossPackageRecoveryFunction env fuel x sel s
  | _ => some (false, s)

/-- analyzeFunction: the seeding step stores, under the bare declared
name, whether the body contains recover, whenever name and body are
present. -/
def analyzeFunction (env : Env) (fuel : Nat) (fd : FuncDecl) (s : AState) :
    Option AState :=
  match fd.name, fd.body with
  | some funcName, some body =>
      match containsRecover env fuel body s with
      | none => none
      | some (hasRecover, s1) => some (storeKey s1 funcName hasRecover)
  | _, _ => some s

/-- AnalyzeFunctions: the seeding pass over every function declaration
of the unit, in order. -/
def AnalyzeFunctions (env : Env) (fuel : Nat) :
    List FuncDecl → AState → Option AState
  | [], s => some s
  | fd :: t, s =>
      match analyzeFunction env fuel fd s with
      | none => none
      | some s1 => AnalyzeFunctions env fuel t s1

/-- analyzeGoroutine: a go statement without call expression yields the
malformed diagnostic; otherwise an unsafe classification yields the
unsafe diagnostic. -/
def analyzeGoroutine (env : Env) (fuel : Nat) (g : GoStmtN) (s : AState) :
    Option AState :=
  match g.call with
  | none => some (report s g.pos "go statement without call expression")
  | some c =>
      match hasRecoveryLogic env fuel c s with
      | none => none
      | some (true, s1) => some s1
      | some (false, s1) =>
          some (report s1 g.pos "goroutine created without panic recovery")

/-- AnalyzeGoroutines over the collected go statements, in order. -/
def AnalyzeGoroutines (env : Env) (fuel : Nat) :
    List GoStmtN → AState → Option AState
  | [], s => some s
  | g :: t, s =>
      match analyzeGoroutine env fuel g s with
      | none => none
      | some s1 => AnalyzeGoroutines env fuel t s1

/-- analyzeErrgroupCall: calls with no argument are skipped; a function
literal first argument is checked with containsRecover; any other first
argument is wrapped as a CallExpr with empty arguments and checked with
hasRecoveryLogic. -/
def analyzeErrgroupCall (env : Env) (fuel : Nat) (e : ECall) (s : AState) :
    Option AState :=
  match e.call.args with
  | [] => some s
  | arg :: _ =>
      match arg with
      | .funcLit body =>
          match containsRecover env fuel body s with
          | none => none
          | some (true, s1) => some s1
          | some (false, s1) =>
              some (report s1 e.pos "errgroup goroutine created without panic recovery")
      | other =>
          match hasRecoveryLogic env fuel (.mk other []) s with
          | none => none
          | some (true, s1) => some s1
          | some (false, s1) =>
              some (report s1 e.pos "errgroup goroutine created without panic recovery")

/-- AnalyzeErrgroupCalls over the collected candidate calls, in order. -/
def AnalyzeErrgroupCalls (env : Env) (fuel : Nat) :
    List ECall → AState → Option AState
  | [], s => some s
  | e :: t, s =>
      match analyzeErrgroupCall env fuel e s with
      | none => none
      | some s1 => AnalyzeErrgroupCalls env fuel t s1

/-- One compilation unit, as extracted by CollectNodes. -/
structure Unit0 where
  decls : List FuncDecl
  goStmts : List GoStmtN
  errCalls : List ECall

/-- run: seed, then go statements, then errgroup calls. -/
def runUnit (env : Env) (fuel : Nat) (u : Unit0) (s : AState) : Option AState :=
  match AnalyzeFunctions env fuel u.decls s with
  | none => none
  | some s1 =>
      match AnalyzeGoroutines env fuel u.goStmts s1 with
      | none => none
      | some s2 => AnalyzeErrgroupCalls env fuel u.errCalls s2

/-- True iff the statement is a defer statement (used to state that a
concrete body registers no exit time callback at all). -/
def isDeferStmt : Stmt → Bool
  | .deferS _ => true
  | _ => false

/-- An environment in which nothing resolves: no type uses, no package
scope entries, no valid positions, no parsable files. -/
def envTriv : Env :=
  ⟨fun _ => none, fun _ _ => none, fun _ => false, fun _ => false, fun _ => none⟩

/-!  Concrete programs used to settle the claims.  -/

/-- A function body consisting of the single statement recover(), i.e. a
call of the fault interception primitive outside any defer. -/
def bareRecoverBody : List Stmt := [.exprS (.call (.mk (.ident 1 "recover") []))]

/-- The declaration func f() that calls recover outside any defer. -/
def fDecl1 : FuncDecl := ⟨some "f", some bareRecoverBody⟩

/-- The statement go func() with a closure that calls recover outside
any defer and registers no defer at all. -/
def goBare : GoStmtN := ⟨3, some (.mk (.funcLit bareRecoverBody) [])⟩

/-- External file for the nested lookup scenario: func A defers a call
to extpkg.A (its identifier is a fresh node, id 99, hence unresolved by
the type information of the current unit) and then calls recover
directly in its body. -/
def fileA4 : GoFile :=
  ⟨[⟨some "A", some [.deferS (some (.mk (.selector (.ident 99 "extpkg") "A") [])),
                     .exprS (.call (.mk (.ident 50 "recover") []))]⟩]⟩

/-- Environment for the nested lookup scenario: only the current unit
identifier (id 0) resolves to package P; the function A of P is declared
at position 10, whose file parses to fileA4. -/
def envReal : Env :=
  ⟨fun id => if id == 0 then some "P" else none,
   fun p f => if p == "P" && f == "A" then some 10 else none,
   fun _ => true, fun _ => true,
   fun pos => if pos == 10 then some fileA4 else none⟩

/-- The statement go extpkg.A() of the current unit (identifier node 0). -/
def goA4 : GoStmtN := ⟨7, some (.mk (.selector (.ident 0 "extpkg") "A") [])⟩

/-- External file for the self reference scenario: func A only defers a
call to extpkg.A (carried by the fresh identifier node 99). -/
def fileA3 : GoFile :=
  ⟨[⟨some "A", some [.deferS (some (.mk (.selector (.ident 99 "extpkg") "A") []))]⟩]⟩

/-- The statement go extpkg.A() at position 1 (identifier node 0). -/
def goA3 : GoStmtN := ⟨1, some (.mk (.selector (.ident 0 "extpkg") "A") [])⟩

/-- Environment for the self reference scenario with faithful type use
information: only the current unit identifier (node 0) resolves to
package P, whose function A is declared at position 10; that file parses
to fileA3, whose deferred qualified reference extpkg.A is carried by the
fresh node 99 and therefore does not resolve. -/
def envReal3 : Env :=
  ⟨fun id => if id == 0 then some "P" else none,
   fun p f => if p == "P" && f == "A" then some 10 else none,
   fun _ => true, fun _ => true,
   fun pos => if pos == 10 then some fileA3 else none⟩

/-- A body whose single statement defers a closure that calls recover:
the canonical safe pattern. -/
def deferRecBody : List Stmt :=
  [.deferS (some (.mk (.funcLit [.exprS (.call (.mk (.ident 2 "recover") []))]) []))]

/-- External file with two declarations named B: first the safe one
(defer of a recovering closure), then one with an empty body (in Go such
a pair arises as a function and a same named method, or a method pair on
two receivers). -/
def fileB : GoFile := ⟨[⟨some "B", some deferRecBody⟩, ⟨some "B", some []⟩]⟩

/-- Environment in which position 10 is printable and parses to fileB. -/
def envB : Env :=
  ⟨fun _ => none, fun _ _ => none, fun _ => false, fun _ => true,
   fun pos => if pos == 10 then some fileB else none⟩

/-!  Helper lemmas.  -/

/-!  Claims.  -/

/-- C1.  The claim states that the seeding pass must record safety only
when recover occurs inside a defer registered on the same function, and
that an occurrence outside any defer must not count.  The code violates
this: for func f whose body is the single statement recover() — a body
with no defer statement at all — analyzeFunction stores true under f. -/
theorem C1_seed_counts_bare_recover :
    (analyzeFunction envTriv 9 fDecl1 state0).map (fun s => tlookup s.table "f")
      = some (some true)
    ∧ bareRecoverBody.any isDeferStmt = false := by
  exact ⟨rfl, rfl⟩

/-- C2.  The claim states that a go statement launching a closure with
no defer registration at all is classified unsafe even when the closure
mentions recover outside a defer.  The code violates this: for
go func() with body recover() — no defer anywhere — no diagnostic is
reported. -/
theorem C2_bare_recover_closure_not_flagged :
    (analyzeGoroutine envTriv 9 goBare state0).map AState.diags = some []
    ∧ bareRecoverBody.any isDeferStmt = false := by
  exact ⟨rfl, rfl⟩

/-- C4.  The claim states that resolving the same qualified key twice in
one run returns the identical boolean both times even if the computation
triggers nested lookups.  The code violates this: for go extpkg.A()
where the loaded declaration of A defers extpkg.A (an identifier foreign
to the type information of the current unit) and then calls recover, the
nested resolution of key extpkg.A returns false while the outer
resolution of the same key returns true; the loader runs once. -/
theorem C4_nested_lookup_two_booleans :
    (analyzeGoroutine envReal 99 goA4 state0).map (fun s => (s.resolveLog, s.loadLog))
      = some ([("extpkg.A", false), ("extpkg.A", true)], ["extpkg.A"]) := by
  exact rfl

/-- C5.  The claim states that once a key of the Recovery Table is
resolved to a boolean it never changes within one run.  The code
violates this in the seeding pass: two declarations sharing the bare
name A (a recovering one first, then one with an empty body) are stored
in order, so the key A is resolved to true and then overwritten with
false. -/
theorem C5_resolved_key_overwritten :
    (AnalyzeFunctions envTriv 9 [⟨some "A", some bareRecoverBody⟩, ⟨some "A", some []⟩]
        state0).map (fun s => (s.storeLog, tlookup s.table "A"))
      = some ([("A", true), ("A", false)], some false) := by
  exact rfl

/-- A fold that keeps the latest element satisfying p equals the first
match over the reversed list, with the accumulator as fallback. -/
theorem foldl_pick_last (p : FuncDecl → Bool) :
    ∀ (l : List FuncDecl) (acc : Option FuncDecl),
      l.foldl (fun a fd => if p fd then some fd else a) acc
        = match l.reverse.find? p with
          | some y => some y
          | none => acc := by
  intro l
  induction l with
  | nil => intro acc; rfl
  | cons x t ih =>
      intro acc
      simp only [List.foldl_cons, List.reverse_cons, List.find?_append]
      rw [ih]
      cases t.reverse.find? p with
      | some y => rfl
      | none => by_cases hx : p x <;> simp [List.find?_cons, hx]

/-- The ast.Inspect loop of analyzeFunctionFromPosition selects the last
matching declaration: the first match over the reversed declaration
list. -/
theorem findFuncDecl_eq_reverse_find (decls : List FuncDecl) (funcName : String) :
    findFuncDecl decls funcName
      = decls.reverse.find? (fun fd => fd.name == some funcName) := by
  unfold findFuncDecl
  rw [foldl_pick_last]
  cases decls.reverse.find? (fun fd => fd.name == some funcName) <;> rfl

/-- C6.  A go statement whose callable is a bare identifier with no
entry in the Recovery Table is classified unsafe: exactly the unsafe
diagnostic is reported at the statement position, the state is otherwise
unchanged, and the analysis returns normally. -/
theorem C6_unknown_local_name_unsafe (env : Env) (fuel : Nat) (pos id : Nat)
    (name : String) (args : List Expr) (s : AState)
    (h : tlookup s.table name = none) :
    analyzeGoroutine env fuel ⟨pos, some (.mk (.ident id name) args)⟩ s
      = some (report s pos "goroutine created without panic recovery") := by
  simp only [analyzeGoroutine, hasRecoveryLogic, CallE.fn, isRecoveryFunction, h]

/-- Witness for C6 at a concrete input: the empty table has no entry for
g, so go g() is flagged. -/
theorem C6_witness :
    analyzeGoroutine envTriv 0 ⟨1, some (.mk (.ident 0 "g") [])⟩ state0
      = some (report state0 1 "goroutine created without panic recovery") :=
  C6_unknown_local_name_unsafe envTriv 0 1 0 "g" [] state0 rfl

/-- C7.  A go statement with no call expression produces exactly one
malformed launch diagnostic at its position, triggers no resolution (the
table and all logs are untouched), and analysis continues with the
remaining statements. -/
theorem C7_malformed_launch_diagnostic (env : Env) (fuel : Nat) (pos : Nat)
    (rest : List GoStmtN) (s : AState) :
    AnalyzeGoroutines env fuel (⟨pos, none⟩ :: rest) s
      = AnalyzeGoroutines env fuel rest
          { s with diags := s.diags ++ [(pos, "go statement without call expression")] } := by
  rfl

/-- C8 counterexample.  In fileB the first declaration named B is the
safe one and analyzing its body yields true, yet the loader returns
false, because the ast.Inspect loop keeps the last match (the empty
bodied B): the loader does not analyze the first matching declaration. -/
theorem C8_counterexample :
    analyzeFunctionFromPosition envB 99 "B" 10 state0 = some (false, state0)
    ∧ fileB.decls.find? (fun fd => fd.name == some "B") = some ⟨some "B", some deferRecBody⟩
    ∧ (containsRecover envB 99 deferRecBody state0).map Prod.fst = some true :=
  ⟨rfl, rfl, rfl⟩

/-- C8 amended.  The loader absorbs every failure: an invalid position,
an unparsable file, or a missing matching declaration yields false with
the state unchanged and no error; when the file parses, the loader
analyzes the last declaration matching the symbol name (first match of
the reversed declaration list) and returns that result, false when that
declaration has no body. -/
theorem C8_loader_absorbs_failure_last_match (env : Env) (fuel : Nat)
    (funcName : String) (pos : Nat) (s : AState) :
    (env.posInfoValid pos = false →
       analyzeFunctionFromPosition env (fuel + 1) funcName pos s = some (false, s))
    ∧ (env.posInfoValid pos = true → env.parseFile pos = none →
       analyzeFunctionFromPosition env (fuel + 1) funcName pos s = some (false, s))
    ∧ (∀ file : GoFile, env.posInfoValid pos = true → env.parseFile pos = some file →
        analyzeFunctionFromPosition env (fuel + 1) funcName pos s
          = match file.decls.reverse.find? (fun fd => fd.name == some funcName) with
            | some fd =>
                match fd.body with
                | some body => containsRecover env fuel body s
                | none => some (false, s)
            | none => some (false, s)) := by
  refine ⟨fun h1 => ?_, fun h1 h2 => ?_, fun file h1 h2 => ?_⟩
  · simp [analyzeFunctionFromPosition, visit, h1]
  · simp [analyzeFunctionFromPosition, visit, h1, h2]
  · simp [analyzeFunctionFromPosition, visit, h1, h2,
          findFuncDecl_eq_reverse_find, containsRecover]

/-- Witness for C8 at a concrete input: in envTriv no position is
printable, so the loader returns false without error. -/
theorem C8_witness :
    analyzeFunctionFromPosition envTriv 1 "Z" 3 state0 = some (false, state0) :=
  (C8_loader_absorbs_failure_last_match envTriv 0 "Z" 3 state0).1 rfl

/-- C9.  Collection of errgroup launches is purely syntactic: a call is
collected iff its function expression is a selector whose selected name
is Go, whatever the receiver; a collected call with no arguments is
silently skipped; a collected call whose first argument is a function
literal is flagged at the call position exactly when the closure body
lacks the recovery pattern of containsRecover. -/
theorem C9_syntactic_go_collection :
    (∀ (fn : Expr) (args : List Expr),
        isErrgroupGoCall (.mk fn args) = true ↔ ∃ x, fn = Expr.selector x "Go")
    ∧ (∀ (env : Env) (fuel pos : Nat) (fn : Expr) (s : AState),
        analyzeErrgroupCall env fuel ⟨pos, .mk fn []⟩ s = some s)
    ∧ (∀ (env : Env) (fuel pos : Nat) (fn : Expr) (body : List Stmt)
         (rest : List Expr) (s : AState) (b : Bool) (s1 : AState),
        containsRecover env fuel body s = some (b, s1) →
        analyzeErrgroupCall env fuel ⟨pos, .mk fn (Expr.funcLit body :: rest)⟩ s
          = some (if b then s1
                  else report s1 pos "errgroup goroutine created without panic recovery")) := by
  refine ⟨fun fn args => ?_, fun env fuel pos fn s => rfl,
          fun env fuel pos fn body rest s b s1 h => ?_⟩
  · cases fn <;> simp [isErrgroupGoCall, CallE.fn]
  · simp only [analyzeErrgroupCall, CallE.args, h]
    cases b <;> rfl

/-- Witness for C9 at a concrete input: a .Go call whose first argument
is an empty closure is flagged. -/
theorem C9_witness :
    analyzeErrgroupCall envTriv 9 ⟨2, .mk Expr.basic [Expr.funcLit []]⟩ state0
      = some (if false then state0
              else report state0 2 "errgroup goroutine created without panic recovery") :=
  C9_syntactic_go_collection.2.2 envTriv 9 2 Expr.basic [] [] state0 false state0 rfl

/-- C10.  Detection of the fault interception primitive is purely name
based: a call counts iff its function expression is a bare identifier
spelled recover, whatever its arguments and whatever declaration the
identifier denotes; in particular no selector (qualified or aliased
access) ever counts. -/
theorem C10_name_based_recover_detection :
    ∀ (fn : Expr) (args : List Expr),
      isRecoverCall (.mk fn args) = true ↔ ∃ id, fn = Expr.ident id "recover" := by
  intro fn args
  cases fn <;> simp [isRecoverCall, CallE.fn]

/-- Witness for C10 at a concrete input: a bare recover call counts. -/
theorem C10_witness : isRecoverCall (.mk (Expr.ident 0 "recover") []) = true :=
  (C10_name_based_recover_detection (Expr.ident 0 "recover") []).mpr ⟨0, rfl⟩

/-!  Termination of the analysis.  The fuel parameter of visit bounds
the recursion depth (every arm hands the decremented fuel to each of its
children), so the run completes as soon as the fuel exceeds the depth of
the call tree.  The functions below compute a syntactic depth bound for
every task; a cross task costs a constant because
isCrossPackageRecoveryFunction only pattern matches the operand, and the
one level of loading it can trigger is accounted for separately.  -/

mutual

/-- Depth bound of the traversal rooted at an expression node. -/
def eF : Expr → Nat
  | .ident _ _ => 1
  | .selector x _ => 1 + eF x
  | .funcLit body => 2 + ssF body
  | .call c => 1 + cF c
  | .basic => 1

/-- Depth bound rooted at a CallExpr node. -/
def cF : CallE → Nat
  | .mk fn args => 1 + Nat.max (eF fn) (esF args)

/-- Depth bound for an expression list. -/
def esF : List Expr → Nat
  | [] => 1
  | e :: t => 1 + Nat.max (eF e) (esF t)

/-- Depth bound rooted at a statement node. -/
def sF : Stmt → Nat
  | .exprS e => 1 + eF e
  | .deferS none => 1
  | .deferS (some c) => 1 + Nat.max (defRF c) (cF c)
  | .goS _ none => 1
  | .goS _ (some c) => 1 + cF c
  | .block l => 2 + ssF l
  | .ifS ini cond thenB els =>
      1 + Nat.max (match ini with | some i => sF i | none => 0)
            (Nat.max (eF cond) (Nat.max (1 + ssF thenB)
              (match els with | some e => sF e | none => 0)))
  | .assignS lhs rhs => 1 + Nat.max (esF lhs) (esF rhs)
  | .returnS res => 1 + esF res
  | .otherS => 1

/-- Depth bound for a statement list. -/
def ssF : List Stmt → Nat
  | [] => 1
  | st :: t => 1 + Nat.max (sF st) (ssF t)

/-- Depth bound of isDeferredRecovery on a deferred CallExpr. -/
def defRF : CallE → Nat
  | .mk fn _ =>
      1 + (match fn with
           | .funcLit body => 1 + ssF body
           | .selector _ _ => 4
           | _ => 1)

end

mutual

/-- True iff no identifier in the expression resolves through the type
use map (the situation of every freshly re-parsed tree, whose nodes are
absent from the pointer keyed Pass.TypesInfo.Uses). -/
def eNoU (env : Env) : Expr → Bool
  | .ident id _ => env.uses id == none
  | .selector x _ => eNoU env x
  | .funcLit body => ssNoU env body
  | .call c => cNoU env c
  | .basic => true

/-- No identifier of the CallExpr resolves. -/
def cNoU (env : Env) : CallE → Bool
  | .mk fn args => eNoU env fn && esNoU env args

/-- No identifier of the expression list resolves. -/
def esNoU (env : Env) : List Expr → Bool
  | [] => true
  | e :: t => eNoU env e && esNoU env t

/-- No identifier of the statement resolves. -/
def sNoU (env : Env) : Stmt → Bool
  | .exprS e => eNoU env e
  | .deferS none => true
  | .deferS (some c) => cNoU env c
  | .goS _ none => true
  | .goS _ (some c) => cNoU env c
  | .block l => ssNoU env l
  | .ifS ini cond thenB els =>
      (match ini with | some i => sNoU env i | none => true)
      && (eNoU env cond && (ssNoU env thenB
      && (match els with | some e => sNoU env e | none => true)))
  | .assignS lhs rhs => esNoU env lhs && esNoU env rhs
  | .returnS res => esNoU env res
  | .otherS => true

/-- No identifier of the statement list resolves. -/
def ssNoU (env : Env) : List Stmt → Bool
  | [] => true
  | st :: t => sNoU env st && ssNoU env t

end

/-- Depth bound of a task. -/
def taskFuel : VTask → Nat
  | .e e => eF e
  | .c c => cF c
  | .es l => esF l
  | .s st => sF st
  | .ss l => ssF l
  | .blk l => 1 + ssF l
  | .defR c => defRF c
  | .cross _ _ => 4
  | .acpf _ _ => 3
  | .affp _ _ => 2

/-- A task is fresh when none of its identifiers resolves through the
type use map; the loader tasks are never fresh (their loaded body is
accounted for through the environment bound instead). -/
def taskNoU (env : Env) : VTask → Bool
  | .e e => eNoU env e
  | .c c => cNoU env c
  | .es l => esNoU env l
  | .s st => sNoU env st
  | .ss l => ssNoU env l
  | .blk l => ssNoU env l
  | .defR c => cNoU env c
  | .cross x _ => eNoU env x
  | .acpf _ _ => false
  | .affp _ _ => false

/-- Realizability of the type use information: identifiers of re-parsed
files are fresh AST nodes, absent from the pointer keyed
Pass.TypesInfo.Uses, so nothing in a parsed declaration body resolves. -/
def FreshParses (env : Env) : Prop :=
  ∀ pos file, env.parseFile pos = some file →
    ∀ fd ∈ file.decls, ∀ body, fd.body = some body → ssNoU env body = true

/-- The declaration bodies reachable through parsing have depth bound at
most B (every real program has finitely many files, hence such a B). -/
def BoundedParses (env : Env) (B : Nat) : Prop :=
  ∀ pos file, env.parseFile pos = some file →
    ∀ fd ∈ file.decls, ∀ body, fd.body = some body → ssF body ≤ B

/-- A defined traversal result stays defined through the found flag
propagation when the continuation is defined. -/
theorem seqFound_ne_none {o : Option (Bool × AState)}
    {k : AState → Option (Bool × AState)}
    (h1 : o ≠ none) (h2 : ∀ s1, k s1 ≠ none) : seqFound o k ≠ none := by
  match o with
  | none => exact absurd rfl h1
  | some (true, s1) => simp [seqFound]
  | some (false, s1) => simpa [seqFound] using h2 s1

/-- A defined computation stays defined through the store and return
step of a cache miss. -/
theorem storeResolve_ne_none (key : String) {o : Option (Bool × AState)}
    (h : o ≠ none) : storeResolve key o ≠ none := by
  match o with
  | none => exact absurd rfl h
  | some r => simp [storeResolve]

/-- A declaration selected by the ast.Inspect loop belongs to the list. -/
theorem findFuncDecl_mem {decls : List FuncDecl} {funcName : String} {fd : FuncDecl}
    (h : findFuncDecl decls funcName = some fd) : fd ∈ decls := by
  rw [findFuncDecl_eq_reverse_find] at h
  exact List.mem_reverse.mp (List.mem_of_find?_eq_some h)

/-- Totality on fresh trees: on a task none of whose identifiers
resolves, the traversal completes whenever the fuel reaches the depth
bound — a cross task met on such a tree resolves at once (cache hit, or
conservative false on the unresolvable identifier) without loading. -/
theorem visit_total_fresh (env : Env) :
    ∀ (n : Nat) (t : VTask) (s : AState),
      taskNoU env t = true → taskFuel t ≤ n → visit env n t s ≠ none := by
  intro n
  induction n using Nat.strong_induction_on with
  | _ n ih =>
    intro t s hU hle
    cases t with
    | e e =>
      cases e with
      | ident i nm =>
          have h1 : 1 ≤ n := by simpa [taskFuel, eF] using hle
          obtain ⟨m, rfl⟩ : ∃ m, n = m + 1 := ⟨n - 1, by omega⟩
          simp [visit]
      | selector x sel =>
          have h1 : 1 + eF x ≤ n := by simpa [taskFuel, eF] using hle
          obtain ⟨m, rfl⟩ : ∃ m, n = m + 1 := ⟨n - 1, by omega⟩
          exact ih m (by omega) (.e x) s hU (by simp only [taskFuel]; omega)
      | funcLit body =>
          have h1 : 2 + ssF body ≤ n := by simpa [taskFuel, eF] using hle
          obtain ⟨m, rfl⟩ : ∃ m, n = m + 1 := ⟨n - 1, by omega⟩
          exact ih m (by omega) (.blk body) s hU (by simp only [taskFuel]; omega)
      | call c =>
          have h1 : 1 + cF c ≤ n := by simpa [taskFuel, eF] using hle
          obtain ⟨m, rfl⟩ : ∃ m, n = m + 1 := ⟨n - 1, by omega⟩
          exact ih m (by omega) (.c c) s hU (by simp only [taskFuel]; omega)
      | basic =>
          have h1 : 1 ≤ n := by simpa [taskFuel, eF] using hle
          obtain ⟨m, rfl⟩ : ∃ m, n = m + 1 := ⟨n - 1, by omega⟩
          simp [visit]
    | c c =>
      obtain ⟨fn, args⟩ := c
      have h1 : 1 + Nat.max (eF fn) (esF args) ≤ n := by simpa [taskFuel, cF] using hle
      obtain ⟨m, rfl⟩ : ∃ m, n = m + 1 := ⟨n - 1, by omega⟩
      have hmax : Nat.max (eF fn) (esF args) ≤ m := by omega
      have h2 : eF fn ≤ m := le_trans (Nat.le_max_left _ _) hmax
      have h3 : esF args ≤ m := le_trans (Nat.le_max_right _ _) hmax
      simp only [taskNoU, cNoU, Bool.and_eq_true] at hU
      cases hr : isRecoverCall (.mk fn args) with
      | true => simp [visit, CallE.fn, CallE.args, hr]
      | false =>
          simp only [visit, CallE.fn, CallE.args, hr, Bool.false_eq_true, if_false]
          exact seqFound_ne_none
            (ih m (by omega) (.e fn) s hU.1 (by simp only [taskFuel]; exact h2))
            (fun s1 => ih m (by omega) (.es args) s1 hU.2 (by simp only [taskFuel]; exact h3))
    | es l =>
      cases l with
      | nil =>
          have h1 : 1 ≤ n := by simpa [taskFuel, esF] using hle
          obtain ⟨m, rfl⟩ : ∃ m, n = m + 1 := ⟨n - 1, by omega⟩
          simp [visit]
      | cons e t =>
          have h1 : 1 + Nat.max (eF e) (esF t) ≤ n := by simpa [taskFuel, esF] using hle
          obtain ⟨m, rfl⟩ : ∃ m, n = m + 1 := ⟨n - 1, by omega⟩
          have hmax : Nat.max (eF e) (esF t) ≤ m := by omega
          have h2 : eF e ≤ m := le_trans (Nat.le_max_left _ _) hmax
          have h3 : esF t ≤ m := le_trans (Nat.le_max_right _ _) hmax
          simp only [taskNoU, esNoU, Bool.and_eq_true] at hU
          simp only [visit]
          exact seqFound_ne_none
            (ih m (by omega) (.e e) s hU.1 (by simp only [taskFuel]; exact h2))
            (fun s1 => ih m (by omega) (.es t) s1 hU.2 (by simp only [taskFuel]; exact h3))
    | s st =>
      cases st with
      | exprS e =>
          have h1 : 1 + eF e ≤ n := by simpa [taskFuel, sF] using hle
          obtain ⟨m, rfl⟩ : ∃ m, n = m + 1 := ⟨n - 1, by omega⟩
          exact ih m (by omega) (.e e) s hU (by simp only [taskFuel]; omega)
      | deferS oc =>
          cases oc with
          | none =>
              have h1 : 1 ≤ n := by simpa [taskFuel, sF] using hle
              obtain ⟨m, rfl⟩ : ∃ m, n = m + 1 := ⟨n - 1, by omega⟩
              simp [visit]
          | some c =>
              have h1 : 1 + Nat.max (defRF c) (cF c) ≤ n := by simpa [taskFuel, sF] using hle
              obtain ⟨m, rfl⟩ : ∃ m, n = m + 1 := ⟨n - 1, by omega⟩
              have hmax : Nat.max (defRF c) (cF c) ≤ m := by omega
              have h2 : defRF c ≤ m := le_trans (Nat.le_max_left _ _) hmax
              have h3 : cF c ≤ m := le_trans (Nat.le_max_right _ _) hmax
              simp only [visit]
              exact seqFound_ne_none
                (ih m (by omega) (.defR c) s hU (by simp only [taskFuel]; exact h2))
                (fun s1 => ih m (by omega) (.c c) s1 hU (by simp only [taskFuel]; exact h3))
      | goS p oc =>
          cases oc with
          | none =>
              have h1 : 1 ≤ n := by simpa [taskFuel, sF] using hle
              obtain ⟨m, rfl⟩ : ∃ m, n = m + 1 := ⟨n - 1, by omega⟩
              simp [visit]
          | some c =>
              have h1 : 1 + cF c ≤ n := by simpa [taskFuel, sF] using hle
              obtain ⟨m, rfl⟩ : ∃ m, n = m + 1 := ⟨n - 1, by omega⟩
              exact ih m (by omega) (.c c) s hU (by simp only [taskFuel]; omega)
      | block l =>
          have h1 : 2 + ssF l ≤ n := by simpa [taskFuel, sF] using hle
          obtain ⟨m, rfl⟩ : ∃ m, n = m + 1 := ⟨n - 1, by omega⟩
          exact ih m (by omega) (.blk l) s hU (by simp only [taskFuel]; omega)
      | ifS ini cond thenB els =>
          cases ini with
          | none =>
              cases els with
              | none =>
                  have h1 : 1 + Nat.max 0 (Nat.max (eF cond)
                      (Nat.max (1 + ssF thenB) 0)) ≤ n := by
                    simpa [taskFuel, sF] using hle
                  obtain ⟨m, rfl⟩ : ∃ m, n = m + 1 := ⟨n - 1, by omega⟩
                  have hmax : Nat.max 0 (Nat.max (eF cond)
                      (Nat.max (1 + ssF thenB) 0)) ≤ m := by omega
                  have hB2 : eF cond ≤ m :=
                    le_trans (le_trans (Nat.le_max_left _ _) (Nat.le_max_right _ _)) hmax
                  have hC : 1 + ssF thenB ≤ m :=
                    le_trans (le_trans (le_trans (Nat.le_max_left _ _)
                      (Nat.le_max_right _ _)) (Nat.le_max_right _ _)) hmax
                  simp only [taskNoU, sNoU, Bool.true_and, Bool.and_true,
                             Bool.and_eq_true] at hU
                  simp only [visit]
                  refine seqFound_ne_none (by simp) (fun s1 => seqFound_ne_none ?_
                    (fun s2 => seqFound_ne_none ?_ (fun s3 => by simp)))
                  · exact ih m (by omega) (.e cond) s1 hU.1
                      (by simp only [taskFuel]; exact hB2)
                  · exact ih m (by omega) (.blk thenB) s2 hU.2
                      (by simp only [taskFuel]; omega)
              | some e0 =>
                  have h1 : 1 + Nat.max 0 (Nat.max (eF cond)
                      (Nat.max (1 + ssF thenB) (sF e0))) ≤ n := by
                    simpa [taskFuel, sF] using hle
                  obtain ⟨m, rfl⟩ : ∃ m, n = m + 1 := ⟨n - 1, by omega⟩
                  have hmax : Nat.max 0 (Nat.max (eF cond)
                      (Nat.max (1 + ssF thenB) (sF e0))) ≤ m := by omega
                  have hB2 : eF cond ≤ m :=
                    le_trans (le_trans (Nat.le_max_left _ _) (Nat.le_max_right _ _)) hmax
                  have hC : 1 + ssF thenB ≤ m :=
                    le_trans (le_trans (le_trans (Nat.le_max_left _ _)
                      (Nat.le_max_right _ _)) (Nat.le_max_right _ _)) hmax
                  have hD : sF e0 ≤ m :=
                    le_trans (le_trans (le_trans (Nat.le_max_right _ _)
                      (Nat.le_max_right _ _)) (Nat.le_max_right _ _)) hmax
                  simp only [taskNoU, sNoU, Bool.true_and, Bool.and_true,
                             Bool.and_eq_true] at hU
                  simp only [visit]
                  refine seqFound_ne_none (by simp) (fun s1 => seqFound_ne_none ?_
                    (fun s2 => seqFound_ne_none ?_ (fun s3 => ?_)))
                  · exact ih m (by omega) (.e cond) s1 hU.1
                      (by simp only [taskFuel]; exact hB2)
                  · exact ih m (by omega) (.blk thenB) s2 hU.2.1
                      (by simp only [taskFuel]; omega)
                  · exact ih m (by omega) (.s e0) s3 hU.2.2
                      (by simp only [taskFuel]; exact hD)
          | some i0 =>
              cases els with
              | none =>
                  have h1 : 1 + Nat.max (sF i0) (Nat.max (eF cond)
                      (Nat.max (1 + ssF thenB) 0)) ≤ n := by
                    simpa [taskFuel, sF] using hle
                  obtain ⟨m, rfl⟩ : ∃ m, n = m + 1 := ⟨n - 1, by omega⟩
                  have hmax : Nat.max (sF i0) (Nat.max (eF cond)
                      (Nat.max (1 + ssF thenB) 0)) ≤ m := by omega
                  have hA : sF i0 ≤ m := le_trans (Nat.le_max_left _ _) hmax
                  have hB2 : eF cond ≤ m :=
                    le_trans (le_trans (Nat.le_max_left _ _) (Nat.le_max_right _ _)) hmax
                  have hC : 1 + ssF thenB ≤ m :=
                    le_trans (le_trans (le_trans (Nat.le_max_left _ _)
                      (Nat.le_max_right _ _)) (Nat.le_max_right _ _)) hmax
                  simp only [taskNoU, sNoU, Bool.true_and, Bool.and_true,
                             Bool.and_eq_true] at hU
                  simp only [visit]
                  refine seqFound_ne_none ?_ (fun s1 => seqFound_ne_none ?_
                    (fun s2 => seqFound_ne_none ?_ (fun s3 => by simp)))
                  · exact ih m (by omega) (.s i0) s hU.1
                      (by simp only [taskFuel]; exact hA)
                  · exact ih m (by omega) (.e cond) s1 hU.2.1
                      (by simp only [taskFuel]; exact hB2)
                  · exact ih m (by omega) (.blk thenB) s2 hU.2.2
                      (by simp only [taskFuel]; omega)
              | some e0 =>
                  have h1 : 1 + Nat.max (sF i0) (Nat.max (eF cond)
                      (Nat.max (1 + ssF thenB) (sF e0))) ≤ n := by
                    simpa [taskFuel, sF] using hle
                  obtain ⟨m, rfl⟩ : ∃ m, n = m + 1 := ⟨n - 1, by omega⟩
                  have hmax : Nat.max (sF i0) (Nat.max (eF cond)
                      (Nat.max (1 + ssF thenB) (sF e0))) ≤ m := by omega
                  have hA : sF i0 ≤ m := le_trans (Nat.le_max_left _ _) hmax
                  have hB2 : eF cond ≤ m :=
                    le_trans (le_trans (Nat.le_max_left _ _) (Nat.le_max_right _ _)) hmax
                  have hC : 1 + ssF thenB ≤ m :=
                    le_trans (le_trans (le_trans (Nat.le_max_left _ _)
                      (Nat.le_max_right _ _)) (Nat.le_max_right _ _)) hmax
                  have hD : sF e0 ≤ m :=
                    le_trans (le_trans (le_trans (Nat.le_max_right _ _)
                      (Nat.le_max_right _ _)) (Nat.le_max_right _ _)) hmax
                  simp only [taskNoU, sNoU, Bool.true_and, Bool.and_true,
                             Bool.and_eq_true] at hU
                  simp only [visit]
                  refine seqFound_ne_none ?_ (fun s1 => seqFound_ne_none ?_
                    (fun s2 => seqFound_ne_none ?_ (fun s3 => ?_)))
                  · exact ih m (by omega) (.s i0) s hU.1
                      (by simp only [taskFuel]; exact hA)
                  · exact ih m (by omega) (.e cond) s1 hU.2.1
                      (by simp only [taskFuel]; exact hB2)
                  · exact ih m (by omega) (.blk thenB) s2 hU.2.2.1
                      (by simp only [taskFuel]; omega)
                  · exact ih m (by omega) (.s e0) s3 hU.2.2.2
                      (by simp only [taskFuel]; exact hD)
      | assignS lhs rhs =>
          have h1 : 1 + Nat.max (esF lhs) (esF rhs) ≤ n := by simpa [taskFuel, sF] using hle
          obtain ⟨m, rfl⟩ : ∃ m, n = m + 1 := ⟨n - 1, by omega⟩
          have hmax : Nat.max (esF lhs) (esF rhs) ≤ m := by omega
          have h2 : esF lhs ≤ m := le_trans (Nat.le_max_left _ _) hmax
          have h3 : esF rhs ≤ m := le_trans (Nat.le_max_right _ _) hmax
          simp only [taskNoU, sNoU, Bool.and_eq_true] at hU
          simp only [visit]
          exact seqFound_ne_none
            (ih m (by omega) (.es lhs) s hU.1 (by simp only [taskFuel]; exact h2))
            (fun s1 => ih m (by omega) (.es rhs) s1 hU.2 (by simp only [taskFuel]; exact h3))
      | returnS res =>
          have h1 : 1 + esF res ≤ n := by simpa [taskFuel, sF] using hle
          obtain ⟨m, rfl⟩ : ∃ m, n = m + 1 := ⟨n - 1, by omega⟩
          exact ih m (by omega) (.es res) s hU (by simp only [taskFuel]; omega)
      | otherS =>
          have h1 : 1 ≤ n := by simpa [taskFuel, sF] using hle
          obtain ⟨m, rfl⟩ : ∃ m, n = m + 1 := ⟨n - 1, by omega⟩
          simp [visit]
    | ss l =>
      cases l with
      | nil =>
          have h1 : 1 ≤ n := by simpa [taskFuel, ssF] using hle
          obtain ⟨m, rfl⟩ : ∃ m, n = m + 1 := ⟨n - 1, by omega⟩
          simp [visit]
      | cons st t =>
          have h1 : 1 + Nat.max (sF st) (ssF t) ≤ n := by simpa [taskFuel, ssF] using hle
          obtain ⟨m, rfl⟩ : ∃ m, n = m + 1 := ⟨n - 1, by omega⟩
          have hmax : Nat.max (sF st) (ssF t) ≤ m := by omega
          have h2 : sF st ≤ m := le_trans (Nat.le_max_left _ _) hmax
          have h3 : ssF t ≤ m := le_trans (Nat.le_max_right _ _) hmax
          simp only [taskNoU, ssNoU, Bool.and_eq_true] at hU
          simp only [visit]
          exact seqFound_ne_none
            (ih m (by omega) (.s st) s hU.1 (by simp only [taskFuel]; exact h2))
            (fun s1 => ih m (by omega) (.ss t) s1 hU.2 (by simp only [taskFuel]; exact h3))
    | blk l =>
      have h1 : 1 + ssF l ≤ n := by simpa [taskFuel] using hle
      obtain ⟨m, rfl⟩ : ∃ m, n = m + 1 := ⟨n - 1, by omega⟩
      simp only [visit]
      exact seqFound_ne_none
        (ih m (by omega) (.ss l) s hU (by simp only [taskFuel]; omega))
        (fun s1 => ih m (by omega) (.ss l) s1 hU (by simp only [taskFuel]; omega))
    | defR c =>
      obtain ⟨fn, args⟩ := c
      simp only [taskNoU, cNoU, Bool.and_eq_true] at hU
      cases fn with
      | ident i nm =>
          have h1 : 1 + 1 ≤ n := by simpa [taskFuel, defRF] using hle
          obtain ⟨m, rfl⟩ : ∃ m, n = m + 1 := ⟨n - 1, by omega⟩
          cases hnm : nm == "recover" <;>
            simp [visit, isRecoverCall, CallE.fn, hnm]
      | selector x sel =>
          have h1 : 1 + 4 ≤ n := by simpa [taskFuel, defRF] using hle
          obtain ⟨m, rfl⟩ : ∃ m, n = m + 1 := ⟨n - 1, by omega⟩
          simp only [visit, isRecoverCall, CallE.fn, Bool.false_eq_true, if_false]
          exact ih m (by omega) (.cross x sel) s hU.1 (by simp only [taskFuel]; omega)
      | funcLit body =>
          have h1 : 1 + (1 + ssF body) ≤ n := by simpa [taskFuel, defRF] using hle
          obtain ⟨m, rfl⟩ : ∃ m, n = m + 1 := ⟨n - 1, by omega⟩
          simp only [visit, isRecoverCall, CallE.fn, Bool.false_eq_true, if_false]
          exact ih m (by omega) (.blk body) s hU.1 (by simp only [taskFuel]; omega)
      | call c2 =>
          have h1 : 1 + 1 ≤ n := by simpa [taskFuel, defRF] using hle
          obtain ⟨m, rfl⟩ : ∃ m, n = m + 1 := ⟨n - 1, by omega⟩
          simp [visit, isRecoverCall, CallE.fn]
      | basic =>
          have h1 : 1 + 1 ≤ n := by simpa [taskFuel, defRF] using hle
          obtain ⟨m, rfl⟩ : ∃ m, n = m + 1 := ⟨n - 1, by omega⟩
          simp [visit, isRecoverCall, CallE.fn]
    | cross x fN =>
      have h1 : 4 ≤ n := by simpa [taskFuel] using hle
      obtain ⟨m, rfl⟩ : ∃ m, n = m + 1 := ⟨n - 1, by omega⟩
      cases x with
      | ident i pkg =>
          have huses : env.uses i = none := by
            simpa [taskNoU, eNoU] using hU
          simp only [visit, huses]
          split
          · simp
          · simp [storeResolve]
      | selector y sel => simp [visit]
      | funcLit body => simp [visit]
      | call c2 => simp [visit]
      | basic => simp [visit]
    | acpf p fN => simp [taskNoU] at hU
    | affp fN pos => simp [taskNoU] at hU

/-- Totality on arbitrary tasks: when re-parsed files are fresh
(FreshParses) and their bodies have depth at most B (BoundedParses), the
traversal completes whenever the fuel reaches the syntactic depth bound
plus B + 4 — the one level of loading a cross task can trigger leads
into a fresh tree, which by visit_total_fresh completes within B more
levels and cannot load again. -/
theorem visit_total (env : Env) (B : Nat)
    (hB : BoundedParses env B) (hF : FreshParses env) :
    ∀ (n : Nat) (t : VTask) (s : AState),
      taskFuel t + (B + 4) ≤ n → visit env n t s ≠ none := by
  intro n
  induction n using Nat.strong_induction_on with
  | _ n ih =>
    intro t s hle
    cases t with
    | e e =>
      cases e with
      | ident i nm =>
          have h1 : 1 + (B + 4) ≤ n := by simpa [taskFuel, eF] using hle
          obtain ⟨m, rfl⟩ : ∃ m, n = m + 1 := ⟨n - 1, by omega⟩
          simp [visit]
      | selector x sel =>
          have h1 : 1 + eF x + (B + 4) ≤ n := by simpa [taskFuel, eF] using hle
          obtain ⟨m, rfl⟩ : ∃ m, n = m + 1 := ⟨n - 1, by omega⟩
          exact ih m (by omega) (.e x) s (by simp only [taskFuel]; omega)
      | funcLit body =>
          have h1 : 2 + ssF body + (B + 4) ≤ n := by simpa [taskFuel, eF] using hle
          obtain ⟨m, rfl⟩ : ∃ m, n = m + 1 := ⟨n - 1, by omega⟩
          exact ih m (by omega) (.blk body) s (by simp only [taskFuel]; omega)
      | call c =>
          have h1 : 1 + cF c + (B + 4) ≤ n := by simpa [taskFuel, eF] using hle
          obtain ⟨m, rfl⟩ : ∃ m, n = m + 1 := ⟨n - 1, by omega⟩
          exact ih m (by omega) (.c c) s (by simp only [taskFuel]; omega)
      | basic =>
          have h1 : 1 + (B + 4) ≤ n := by simpa [taskFuel, eF] using hle
          obtain ⟨m, rfl⟩ : ∃ m, n = m + 1 := ⟨n - 1, by omega⟩
          simp [visit]
    | c c =>
      obtain ⟨fn, args⟩ := c
      have h1 : 1 + Nat.max (eF fn) (esF args) + (B + 4) ≤ n := by
        simpa [taskFuel, cF] using hle
      obtain ⟨m, rfl⟩ : ∃ m, n = m + 1 := ⟨n - 1, by omega⟩
      have hmax : Nat.max (eF fn) (esF args) + (B + 4) ≤ m := by omega
      have h2 : eF fn + (B + 4) ≤ m :=
        le_trans (Nat.add_le_add_right (Nat.le_max_left _ _) _) hmax
      have h3 : esF args + (B + 4) ≤ m :=
        le_trans (Nat.add_le_add_right (Nat.le_max_right _ _) _) hmax
      cases hr : isRecoverCall (.mk fn args) with
      | true => simp [visit, CallE.fn, CallE.args, hr]
      | false =>
          simp only [visit, CallE.fn, CallE.args, hr, Bool.false_eq_true, if_false]
          exact seqFound_ne_none
            (ih m (by omega) (.e fn) s (by simp only [taskFuel]; exact h2))
            (fun s1 => ih m (by omega) (.es args) s1 (by simp only [taskFuel]; exact h3))
    | es l =>
      cases l with
      | nil =>
          have h1 : 1 + (B + 4) ≤ n := by simpa [taskFuel, esF] using hle
          obtain ⟨m, rfl⟩ : ∃ m, n = m + 1 := ⟨n - 1, by omega⟩
          simp [visit]
      | cons e t =>
          have h1 : 1 + Nat.max (eF e) (esF t) + (B + 4) ≤ n := by
            simpa [taskFuel, esF] using hle
          obtain ⟨m, rfl⟩ : ∃ m, n = m + 1 := ⟨n - 1, by omega⟩
          have hmax : Nat.max (eF e) (esF t) + (B + 4) ≤ m := by omega
          have h2 : eF e + (B + 4) ≤ m :=
            le_trans (Nat.add_le_add_right (Nat.le_max_left _ _) _) hmax
          have h3 : esF t + (B + 4) ≤ m :=
            le_trans (Nat.add_le_add_right (Nat.le_max_right _ _) _) hmax
          simp only [visit]
          exact seqFound_ne_none
            (ih m (by omega) (.e e) s (by simp only [taskFuel]; exact h2))
            (fun s1 => ih m (by omega) (.es t) s1 (by simp only [taskFuel]; exact h3))
    | s st =>
      cases st with
      | exprS e =>
          have h1 : 1 + eF e + (B + 4) ≤ n := by simpa [taskFuel, sF] using hle
          obtain ⟨m, rfl⟩ : ∃ m, n = m + 1 := ⟨n - 1, by omega⟩
          exact ih m (by omega) (.e e) s (by simp only [taskFuel]; omega)
      | deferS oc =>
          cases oc with
          | none =>
              have h1 : 1 + (B + 4) ≤ n := by simpa [taskFuel, sF] using hle
              obtain ⟨m, rfl⟩ : ∃ m, n = m + 1 := ⟨n - 1, by omega⟩
              simp [visit]
          | some c =>
              have h1 : 1 + Nat.max (defRF c) (cF c) + (B + 4) ≤ n := by
                simpa [taskFuel, sF] using hle
              obtain ⟨m, rfl⟩ : ∃ m, n = m + 1 := ⟨n - 1, by omega⟩
              have hmax : Nat.max (defRF c) (cF c) + (B + 4) ≤ m := by omega
              have h2 : defRF c + (B + 4) ≤ m :=
                le_trans (Nat.add_le_add_right (Nat.le_max_left _ _) _) hmax
              have h3 : cF c + (B + 4) ≤ m :=
                le_trans (Nat.add_le_add_right (Nat.le_max_right _ _) _) hmax
              simp only [visit]
              exact seqFound_ne_none
                (ih m (by omega) (.defR c) s (by simp only [taskFuel]; exact h2))
                (fun s1 => ih m (by omega) (.c c) s1 (by simp only [taskFuel]; exact h3))
      | goS p oc =>
          cases oc with
          | none =>
              have h1 : 1 + (B + 4) ≤ n := by simpa [taskFuel, sF] using hle
              obtain ⟨m, rfl⟩ : ∃ m, n = m + 1 := ⟨n - 1, by omega⟩
              simp [visit]
          | some c =>
              have h1 : 1 + cF c + (B + 4) ≤ n := by simpa [taskFuel, sF] using hle
              obtain ⟨m, rfl⟩ : ∃ m, n = m + 1 := ⟨n - 1, by omega⟩
              exact ih m (by omega) (.c c) s (by simp only [taskFuel]; omega)
      | block l =>
          have h1 : 2 + ssF l + (B + 4) ≤ n := by simpa [taskFuel, sF] using hle
          obtain ⟨m, rfl⟩ : ∃ m, n = m + 1 := ⟨n - 1, by omega⟩
          exact ih m (by omega) (.blk l) s (by simp only [taskFuel]; omega)
      | ifS ini cond thenB els =>
          cases ini with
          | none =>
              cases els with
              | none =>
                  have h1 : 1 + Nat.max 0 (Nat.max (eF cond)
                      (Nat.max (1 + ssF thenB) 0)) + (B + 4) ≤ n := by
                    simpa [taskFuel, sF] using hle
                  obtain ⟨m, rfl⟩ : ∃ m, n = m + 1 := ⟨n - 1, by omega⟩
                  have hmax : Nat.max 0 (Nat.max (eF cond)
                      (Nat.max (1 + ssF thenB) 0)) + (B + 4) ≤ m := by omega
                  have hB2 : eF cond + (B + 4) ≤ m :=
                    le_trans (Nat.add_le_add_right
                      (le_trans (Nat.le_max_left _ _) (Nat.le_max_right _ _)) _) hmax
                  have hC : (1 + ssF thenB) + (B + 4) ≤ m :=
                    le_trans (Nat.add_le_add_right
                      (le_trans (le_trans (Nat.le_max_left _ _) (Nat.le_max_right _ _))
                        (Nat.le_max_right _ _)) _) hmax
                  simp only [visit]
                  refine seqFound_ne_none (by simp) (fun s1 => seqFound_ne_none ?_
                    (fun s2 => seqFound_ne_none ?_ (fun s3 => by simp)))
                  · exact ih m (by omega) (.e cond) s1 (by simp only [taskFuel]; exact hB2)
                  · exact ih m (by omega) (.blk thenB) s2 (by simp only [taskFuel]; omega)
              | some e0 =>
                  have h1 : 1 + Nat.max 0 (Nat.max (eF cond)
                      (Nat.max (1 + ssF thenB) (sF e0))) + (B + 4) ≤ n := by
                    simpa [taskFuel, sF] using hle
                  obtain ⟨m, rfl⟩ : ∃ m, n = m + 1 := ⟨n - 1, by omega⟩
                  have hmax : Nat.max 0 (Nat.max (eF cond)
                      (Nat.max (1 + ssF thenB) (sF e0))) + (B + 4) ≤ m := by omega
                  have hB2 : eF cond + (B + 4) ≤ m :=
                    le_trans (Nat.add_le_add_right
                      (le_trans (Nat.le_max_left _ _) (Nat.le_max_right _ _)) _) hmax
                  have hC : (1 + ssF thenB) + (B + 4) ≤ m :=
                    le_trans (Nat.add_le_add_right
                      (le_trans (le_trans (Nat.le_max_left _ _) (Nat.le_max_right _ _))
                        (Nat.le_max_right _ _)) _) hmax
                  have hD : sF e0 + (B + 4) ≤ m :=
                    le_trans (Nat.add_le_add_right
                      (le_trans (le_trans (Nat.le_max_right _ _) (Nat.le_max_right _ _))
                        (Nat.le_max_right _ _)) _) hmax
                  simp only [visit]
                  refine seqFound_ne_none (by simp) (fun s1 => seqFound_ne_none ?_
                    (fun s2 => seqFound_ne_none ?_ (fun s3 => ?_)))
                  · exact ih m (by omega) (.e cond) s1 (by simp only [taskFuel]; exact hB2)
                  · exact ih m (by omega) (.blk thenB) s2 (by simp only [taskFuel]; omega)
                  · exact ih m (by omega) (.s e0) s3 (by simp only [taskFuel]; exact hD)
          | some i0 =>
              cases els with
              | none =>
                  have h1 : 1 + Nat.max (sF i0) (Nat.max (eF cond)
                      (Nat.max (1 + ssF thenB) 0)) + (B + 4) ≤ n := by
                    simpa [taskFuel, sF] using hle
                  obtain ⟨m, rfl⟩ : ∃ m, n = m + 1 := ⟨n - 1, by omega⟩
                  have hmax : Nat.max (sF i0) (Nat.max (eF cond)
                      (Nat.max (1 + ssF thenB) 0)) + (B + 4) ≤ m := by omega
                  have hA : sF i0 + (B + 4) ≤ m :=
                    le_trans (Nat.add_le_add_right (Nat.le_max_left _ _) _) hmax
                  have hB2 : eF cond + (B + 4) ≤ m :=
                    le_trans (Nat.add_le_add_right
                      (le_trans (Nat.le_max_left _ _) (Nat.le_max_right _ _)) _) hmax
                  have hC : (1 + ssF thenB) + (B + 4) ≤ m :=
                    le_trans (Nat.add_le_add_right
                      (le_trans (le_trans (Nat.le_max_left _ _) (Nat.le_max_right _ _))
                        (Nat.le_max_right _ _)) _) hmax
                  simp only [visit]
                  refine seqFound_ne_none ?_ (fun s1 => seqFound_ne_none ?_
                    (fun s2 => seqFound_ne_none ?_ (fun s3 => by simp)))
                  · exact ih m (by omega) (.s i0) s (by simp only [taskFuel]; exact hA)
                  · exact ih m (by omega) (.e cond) s1 (by simp only [taskFuel]; exact hB2)
                  · exact ih m (by omega) (.blk thenB) s2 (by simp only [taskFuel]; omega)
              | some e0 =>
                  have h1 : 1 + Nat.max (sF i0) (Nat.max (eF cond)
                      (Nat.max (1 + ssF thenB) (sF e0))) + (B + 4) ≤ n := by
                    simpa [taskFuel, sF] using hle
                  obtain ⟨m, rfl⟩ : ∃ m, n = m + 1 := ⟨n - 1, by omega⟩
                  have hmax : Nat.max (sF i0) (Nat.max (eF cond)
                      (Nat.max (1 + ssF thenB) (sF e0))) + (B + 4) ≤ m := by omega
                  have hA : sF i0 + (B + 4) ≤ m :=
                    le_trans (Nat.add_le_add_right (Nat.le_max_left _ _) _) hmax
                  have hB2 : eF cond + (B + 4) ≤ m :=
                    le_trans (Nat.add_le_add_right
                      (le_trans (Nat.le_max_left _ _) (Nat.le_max_right _ _)) _) hmax
                  have hC : (1 + ssF thenB) + (B + 4) ≤ m :=
                    le_trans (Nat.add_le_add_right
                      (le_trans (le_trans (Nat.le_max_left _ _) (Nat.le_max_right _ _))
                        (Nat.le_max_right _ _)) _) hmax
                  have hD : sF e0 + (B + 4) ≤ m :=
                    le_trans (Nat.add_le_add_right
                      (le_trans (le_trans (Nat.le_max_right _ _) (Nat.le_max_right _ _))
                        (Nat.le_max_right _ _)) _) hmax
                  simp only [visit]
                  refine seqFound_ne_none ?_ (fun s1 => seqFound_ne_none ?_
                    (fun s2 => seqFound_ne_none ?_ (fun s3 => ?_)))
                  · exact ih m (by omega) (.s i0) s (by simp only [taskFuel]; exact hA)
                  · exact ih m (by omega) (.e cond) s1 (by simp only [taskFuel]; exact hB2)
                  · exact ih m (by omega) (.blk thenB) s2 (by simp only [taskFuel]; omega)
                  · exact ih m (by omega) (.s e0) s3 (by simp only [taskFuel]; exact hD)
      | assignS lhs rhs =>
          have h1 : 1 + Nat.max (esF lhs) (esF rhs) + (B + 4) ≤ n := by
            simpa [taskFuel, sF] using hle
          obtain ⟨m, rfl⟩ : ∃ m, n = m + 1 := ⟨n - 1, by omega⟩
          have hmax : Nat.max (esF lhs) (esF rhs) + (B + 4) ≤ m := by omega
          have h2 : esF lhs + (B + 4) ≤ m :=
            le_trans (Nat.add_le_add_right (Nat.le_max_left _ _) _) hmax
          have h3 : esF rhs + (B + 4) ≤ m :=
            le_trans (Nat.add_le_add_right (Nat.le_max_right _ _) _) hmax
          simp only [visit]
          exact seqFound_ne_none
            (ih m (by omega) (.es lhs) s (by simp only [taskFuel]; exact h2))
            (fun s1 => ih m (by omega) (.es rhs) s1 (by simp only [taskFuel]; exact h3))
      | returnS res =>
          have h1 : 1 + esF res + (B + 4) ≤ n := by simpa [taskFuel, sF] using hle
          obtain ⟨m, rfl⟩ : ∃ m, n = m + 1 := ⟨n - 1, by omega⟩
          exact ih m (by omega) (.es res) s (by simp only [taskFuel]; omega)
      | otherS =>
          have h1 : 1 + (B + 4) ≤ n := by simpa [taskFuel, sF] using hle
          obtain ⟨m, rfl⟩ : ∃ m, n = m + 1 := ⟨n - 1, by omega⟩
          simp [visit]
    | ss l =>
      cases l with
      | nil =>
          have h1 : 1 + (B + 4) ≤ n := by simpa [taskFuel, ssF] using hle
          obtain ⟨m, rfl⟩ : ∃ m, n = m + 1 := ⟨n - 1, by omega⟩
          simp [visit]
      | cons st t =>
          have h1 : 1 + Nat.max (sF st) (ssF t) + (B + 4) ≤ n := by
            simpa [taskFuel, ssF] using hle
          obtain ⟨m, rfl⟩ : ∃ m, n = m + 1 := ⟨n - 1, by omega⟩
          have hmax : Nat.max (sF st) (ssF t) + (B + 4) ≤ m := by omega
          have h2 : sF st + (B + 4) ≤ m :=
            le_trans (Nat.add_le_add_right (Nat.le_max_left _ _) _) hmax
          have h3 : ssF t + (B + 4) ≤ m :=
            le_trans (Nat.add_le_add_right (Nat.le_max_right _ _) _) hmax
          simp only [visit]
          exact seqFound_ne_none
            (ih m (by omega) (.s st) s (by simp only [taskFuel]; exact h2))
            (fun s1 => ih m (by omega) (.ss t) s1 (by simp only [taskFuel]; exact h3))
    | blk l =>
      have h1 : 1 + ssF l + (B + 4) ≤ n := by simpa [taskFuel] using hle
      obtain ⟨m, rfl⟩ : ∃ m, n = m + 1 := ⟨n - 1, by omega⟩
      simp only [visit]
      exact seqFound_ne_none
        (ih m (by omega) (.ss l) s (by simp only [taskFuel]; omega))
        (fun s1 => ih m (by omega) (.ss l) s1 (by simp only [taskFuel]; omega))
    | defR c =>
      obtain ⟨fn, args⟩ := c
      cases fn with
      | ident i nm =>
          have h1 : 1 + 1 + (B + 4) ≤ n := by simpa [taskFuel, defRF] using hle
          obtain ⟨m, rfl⟩ : ∃ m, n = m + 1 := ⟨n - 1, by omega⟩
          cases hnm : nm == "recover" <;>
            simp [visit, isRecoverCall, CallE.fn, hnm]
      | selector x sel =>
          have h1 : 1 + 4 + (B + 4) ≤ n := by simpa [taskFuel, defRF] using hle
          obtain ⟨m, rfl⟩ : ∃ m, n = m + 1 := ⟨n - 1, by omega⟩
          simp only [visit, isRecoverCall, CallE.fn, Bool.false_eq_true, if_false]
          exact ih m (by omega) (.cross x sel) s (by simp only [taskFuel]; omega)
      | funcLit body =>
          have h1 : 1 + (1 + ssF body) + (B + 4) ≤ n := by simpa [taskFuel, defRF] using hle
          obtain ⟨m, rfl⟩ : ∃ m, n = m + 1 := ⟨n - 1, by omega⟩
          simp only [visit, isRecoverCall, CallE.fn, Bool.false_eq_true, if_false]
          exact ih m (by omega) (.blk body) s (by simp only [taskFuel]; omega)
      | call c2 =>
          have h1 : 1 + 1 + (B + 4) ≤ n := by simpa [taskFuel, defRF] using hle
          obtain ⟨m, rfl⟩ : ∃ m, n = m + 1 := ⟨n - 1, by omega⟩
          simp [visit, isRecoverCall, CallE.fn]
      | basic =>
          have h1 : 1 + 1 + (B + 4) ≤ n := by simpa [taskFuel, defRF] using hle
          obtain ⟨m, rfl⟩ : ∃ m, n = m + 1 := ⟨n - 1, by omega⟩
          simp [visit, isRecoverCall, CallE.fn]
    | cross x fN =>
      have h1 : 4 + (B + 4) ≤ n := by simpa [taskFuel] using hle
      obtain ⟨m, rfl⟩ : ∃ m, n = m + 1 := ⟨n - 1, by omega⟩
      cases x with
      | ident i pkg =>
          simp only [visit]
          split
          · simp
          · cases huses : env.uses i with
            | none => simp [huses, storeResolve]
            | some p =>
                simp only [huses]
                exact storeResolve_ne_none _
                  (ih m (by omega) (.acpf p fN) _ (by simp only [taskFuel]; omega))
      | selector y sel => simp [visit]
      | funcLit body => simp [visit]
      | call c2 => simp [visit]
      | basic => simp [visit]
    | acpf p fN =>
      have h1 : 3 + (B + 4) ≤ n := by simpa [taskFuel] using hle
      obtain ⟨m, rfl⟩ : ∃ m, n = m + 1 := ⟨n - 1, by omega⟩
      simp only [visit]
      cases hsl : env.scopeLookup p fN with
      | none => simp [hsl]
      | some pos =>
          simp only [hsl]
          cases htv : env.tokPosValid pos with
          | false => simp [htv]
          | true =>
              simp only [htv, if_true]
              exact ih m (by omega) (.affp fN pos) s (by simp only [taskFuel]; omega)
    | affp fN pos =>
      have h1 : 2 + (B + 4) ≤ n := by simpa [taskFuel] using hle
      obtain ⟨m, rfl⟩ : ∃ m, n = m + 1 := ⟨n - 1, by omega⟩
      simp only [visit]
      cases hpv : env.posInfoValid pos with
      | false => simp [hpv]
      | true =>
          simp only [hpv, if_true]
          cases hpf : env.parseFile pos with
          | none => simp [hpf]
          | some file =>
              simp only [hpf]
              cases hfd : findFuncDecl file.decls fN with
              | none => simp [hfd]
              | some fd =>
                  simp only [hfd]
                  cases hb : fd.body with
                  | none => simp [hb]
                  | some body =>
                      simp only [hb]
                      refine visit_total_fresh env m (.blk body) s ?_ ?_
                      · simp only [taskNoU]
                        exact hF pos file hpf fd (findFuncDecl_mem hfd) body hb
                      · simp only [taskFuel]
                        have := hB pos file hpf fd (findFuncDecl_mem hfd) body hb
                        omega

/-- Fuel needed by hasRecoveryLogic on a callable, before the loading
allowance. -/
def callNeed : CallE → Nat
  | .mk fn _ =>
      match fn with
      | .funcLit body => 1 + ssF body
      | .selector _ _ => 4
      | _ => 0

/-- Fuel needed by analyzeGoroutine on a go statement. -/
def goNeed (g : GoStmtN) : Nat :=
  match g.call with
  | none => 0
  | some c => callNeed c

/-- Fuel needed by analyzeFunction on a declaration. -/
def declNeed (fd : FuncDecl) : Nat :=
  match fd.body with
  | some body => 1 + ssF body
  | none => 0

/-- Fuel needed by analyzeErrgroupCall on a collected call. -/
def eNeed (e : ECall) : Nat :=
  match e.call.args with
  | [] => 0
  | arg :: _ =>
      match arg with
      | .funcLit body => 1 + ssF body
      | .selector _ _ => 4
      | _ => 0

/-- Largest need over a list. -/
def maxList {α : Type} (f : α → Nat) : List α → Nat
  | [] => 0
  | a :: t => Nat.max (f a) (maxList f t)

/-- Fuel needed by the whole run on one unit. -/
def unitNeed (u : Unit0) : Nat :=
  Nat.max (maxList declNeed u.decls)
    (Nat.max (maxList goNeed u.goStmts) (maxList eNeed u.errCalls))

/-- hasRecoveryLogic completes on sufficient fuel. -/
theorem hasRecoveryLogic_ne_none (env : Env) (B : Nat)
    (hB : BoundedParses env B) (hF : FreshParses env)
    (fuel : Nat) (c : CallE) (s : AState)
    (h : callNeed c + (B + 4) ≤ fuel) :
    hasRecoveryLogic env fuel c s ≠ none := by
  obtain ⟨fn, args⟩ := c
  cases fn with
  | funcLit body =>
      have h1 := visit_total env B hB hF fuel (.blk body) s
        (by simp only [taskFuel]; simpa [callNeed] using h)
      simpa [hasRecoveryLogic, CallE.fn, containsRecover] using h1
  | ident i nm => simp [hasRecoveryLogic, CallE.fn]
  | selector x sel =>
      have h1 := visit_total env B hB hF fuel (.cross x sel) s
        (by simp only [taskFuel]; simpa [callNeed] using h)
      simpa [hasRecoveryLogic, CallE.fn, isCrossPackageRecoveryFunction] using h1
  | call c2 => simp [hasRecoveryLogic, CallE.fn]
  | basic => simp [hasRecoveryLogic, CallE.fn]

/-- analyzeGoroutine completes on sufficient fuel. -/
theorem analyzeGoroutine_ne_none (env : Env) (B : Nat)
    (hB : BoundedParses env B) (hF : FreshParses env)
    (fuel : Nat) (g : GoStmtN) (s : AState)
    (h : goNeed g + (B + 4) ≤ fuel) :
    analyzeGoroutine env fuel g s ≠ none := by
  obtain ⟨pos, oc⟩ := g
  cases oc with
  | none => simp [analyzeGoroutine]
  | some c =>
      have h1 := hasRecoveryLogic_ne_none env B hB hF fuel c s
        (by simpa [goNeed] using h)
      simp only [analyzeGoroutine]
      cases h2 : hasRecoveryLogic env fuel c s with
      | none => exact absurd h2 h1
      | some r =>
          obtain ⟨b, s1⟩ := r
          cases b <;> simp

/-- analyzeFunction completes on sufficient fuel. -/
theorem analyzeFunction_ne_none (env : Env) (B : Nat)
    (hB : BoundedParses env B) (hF : FreshParses env)
    (fuel : Nat) (fd : FuncDecl) (s : AState)
    (h : declNeed fd + (B + 4) ≤ fuel) :
    analyzeFunction env fuel fd s ≠ none := by
  obtain ⟨onm, ob⟩ := fd
  cases onm with
  | none => simp [analyzeFunction]
  | some nm =>
      cases ob with
      | none => simp [analyzeFunction]
      | some body =>
          have h1 := visit_total env B hB hF fuel (.blk body) s
            (by simp only [taskFuel]; simpa [declNeed] using h)
          simp only [analyzeFunction, containsRecover]
          cases h2 : visit env fuel (VTask.blk body) s with
          | none => exact absurd h2 h1
          | some r => simp

/-- analyzeErrgroupCall completes on sufficient fuel. -/
theorem analyzeErrgroupCall_ne_none (env : Env) (B : Nat)
    (hB : BoundedParses env B) (hF : FreshParses env)
    (fuel : Nat) (e : ECall) (s : AState)
    (h : eNeed e + (B + 4) ≤ fuel) :
    analyzeErrgroupCall env fuel e s ≠ none := by
  obtain ⟨pos, c⟩ := e
  obtain ⟨fn, args⟩ := c
  cases args with
  | nil => simp [analyzeErrgroupCall, CallE.args]
  | cons arg rest =>
      cases arg with
      | funcLit body =>
          have h1 := visit_total env B hB hF fuel (.blk body) s
            (by simp only [taskFuel]; simpa [eNeed, CallE.args] using h)
          simp only [analyzeErrgroupCall, CallE.args, containsRecover]
          cases h2 : visit env fuel (VTask.blk body) s with
          | none => exact absurd h2 h1
          | some r =>
              obtain ⟨b, s1⟩ := r
              cases b <;> simp
      | ident i nm =>
          cases hb : isRecoveryFunction s nm <;>
            simp [analyzeErrgroupCall, CallE.args, hasRecoveryLogic, CallE.fn, hb]
      | selector x sel =>
          have h1 := visit_total env B hB hF fuel (.cross x sel) s
            (by simp only [taskFuel]; simpa [eNeed, CallE.args] using h)
          simp only [analyzeErrgroupCall, CallE.args, hasRecoveryLogic, CallE.fn,
                     isCrossPackageRecoveryFunction]
          cases h2 : visit env fuel (VTask.cross x sel) s with
          | none => exact absurd h2 h1
          | some r =>
              obtain ⟨b, s1⟩ := r
              cases b <;> simp
      | call c2 => simp [analyzeErrgroupCall, CallE.args, hasRecoveryLogic, CallE.fn]
      | basic => simp [analyzeErrgroupCall, CallE.args, hasRecoveryLogic, CallE.fn]

/-- The seeding pass completes on sufficient fuel. -/
theorem AnalyzeFunctions_ne_none (env : Env) (B : Nat)
    (hB : BoundedParses env B) (hF : FreshParses env) (fuel : Nat) :
    ∀ (l : List FuncDecl) (s : AState),
      maxList declNeed l + (B + 4) ≤ fuel → AnalyzeFunctions env fuel l s ≠ none := by
  intro l
  induction l with
  | nil => intro s h; simp [AnalyzeFunctions]
  | cons fd t ihl =>
      intro s h
      simp only [maxList] at h
      have hd : declNeed fd + (B + 4) ≤ fuel :=
        le_trans (Nat.add_le_add_right (Nat.le_max_left _ _) _) h
      have ht : maxList declNeed t + (B + 4) ≤ fuel :=
        le_trans (Nat.add_le_add_right (Nat.le_max_right _ _) _) h
      have h1 := analyzeFunction_ne_none env B hB hF fuel fd s hd
      simp only [AnalyzeFunctions]
      cases h2 : analyzeFunction env fuel fd s with
      | none => exact absurd h2 h1
      | some s1 => exact ihl s1 ht

/-- The goroutine pass completes on sufficient fuel. -/
theorem AnalyzeGoroutines_ne_none (env : Env) (B : Nat)
    (hB : BoundedParses env B) (hF : FreshParses env) (fuel : Nat) :
    ∀ (l : List GoStmtN) (s : AState),
      maxList goNeed l + (B + 4) ≤ fuel → AnalyzeGoroutines env fuel l s ≠ none := by
  intro l
  induction l with
  | nil => intro s h; simp [AnalyzeGoroutines]
  | cons g t ihl =>
      intro s h
      simp only [maxList] at h
      have hd : goNeed g + (B + 4) ≤ fuel :=
        le_trans (Nat.add_le_add_right (Nat.le_max_left _ _) _) h
      have ht : maxList goNeed t + (B + 4) ≤ fuel :=
        le_trans (Nat.add_le_add_right (Nat.le_max_right _ _) _) h
      have h1 := analyzeGoroutine_ne_none env B hB hF fuel g s hd
      simp only [AnalyzeGoroutines]
      cases h2 : analyzeGoroutine env fuel g s with
      | none => exact absurd h2 h1
      | some s1 => exact ihl s1 ht

/-- The errgroup pass completes on sufficient fuel. -/
theorem AnalyzeErrgroupCalls_ne_none (env : Env) (B : Nat)
    (hB : BoundedParses env B) (hF : FreshParses env) (fuel : Nat) :
    ∀ (l : List ECall) (s : AState),
      maxList eNeed l + (B + 4) ≤ fuel → AnalyzeErrgroupCalls env fuel l s ≠ none := by
  intro l
  induction l with
  | nil => intro s h; simp [AnalyzeErrgroupCalls]
  | cons e t ihl =>
      intro s h
      simp only [maxList] at h
      have hd : eNeed e + (B + 4) ≤ fuel :=
        le_trans (Nat.add_le_add_right (Nat.le_max_left _ _) _) h
      have ht : maxList eNeed t + (B + 4) ≤ fuel :=
        le_trans (Nat.add_le_add_right (Nat.le_max_right _ _) _) h
      have h1 := analyzeErrgroupCall_ne_none env B hB hF fuel e s hd
      simp only [AnalyzeErrgroupCalls]
      cases h2 : analyzeErrgroupCall env fuel e s with
      | none => exact absurd h2 h1
      | some s1 => exact ihl s1 ht

/-- The whole run completes on sufficient fuel. -/
theorem runUnit_ne_none (env : Env) (B : Nat)
    (hB : BoundedParses env B) (hF : FreshParses env)
    (fuel : Nat) (u : Unit0) (s : AState)
    (h : unitNeed u + (B + 4) ≤ fuel) : runUnit env fuel u s ≠ none := by
  obtain ⟨decls, goStmts, errCalls⟩ := u
  simp only [unitNeed] at h
  have hd : maxList declNeed decls + (B + 4) ≤ fuel :=
    le_trans (Nat.add_le_add_right (Nat.le_max_left _ _) _) h
  have hg : maxList goNeed goStmts + (B + 4) ≤ fuel :=
    le_trans (Nat.add_le_add_right
      (le_trans (Nat.le_max_left _ _) (Nat.le_max_right _ _)) _) h
  have he : maxList eNeed errCalls + (B + 4) ≤ fuel :=
    le_trans (Nat.add_le_add_right
      (le_trans (Nat.le_max_right _ _) (Nat.le_max_right _ _)) _) h
  simp only [runUnit]
  cases h1 : AnalyzeFunctions env fuel decls s with
  | none => exact absurd h1 (AnalyzeFunctions_ne_none env B hB hF fuel decls s hd)
  | some s1 =>
      show (match AnalyzeGoroutines env fuel goStmts s1 with
            | none => none
            | some s2 => AnalyzeErrgroupCalls env fuel errCalls s2) ≠ none
      cases h2 : AnalyzeGoroutines env fuel goStmts s1 with
      | none => exact absurd h2 (AnalyzeGoroutines_ne_none env B hB hF fuel goStmts s1 hg)
      | some s2 => exact AnalyzeErrgroupCalls_ne_none env B hB hF fuel errCalls s2 he

/-- C3 counterexample.  The claim attributes cycle breaking to a
resolving sentinel whose resolved states are terminal.  On the
realizable input go extpkg.A(), where the loaded declaration of A defers
extpkg.A() (a fresh re-parsed identifier) and then calls recover, the
rediscovered in flight key extpkg.A is not short circuited by any
sentinel: it is recomputed and stored as false, and the outer
computation of the very same key then overwrites the entry with true —
two stores with different values for one key during a single resolution,
impossible under the claimed terminal sentinel state machine. -/
theorem C3_counterexample :
    (analyzeGoroutine envReal 99 goA4 state0).map
        (fun s => (s.storeLog, tlookup s.table "extpkg.A"))
      = some ([("extpkg.A", false), ("extpkg.A", true)], some true) := by
  exact rfl

/-- C3 amended.  For every input program the resolution algorithm
terminates and the analysis run completes: under the realizability
conditions of the type use information (identifiers of re-parsed files
are fresh nodes that never resolve, and parsed declaration bodies have a
uniform depth bound) every fuel beyond the computable bound makes the
run return a result, so mutually referential qualified callables do not
cause unbounded recursion — not because of a resolving sentinel, but
because a rediscovered qualified reference inside a loaded declaration
immediately resolves conservatively.  In particular the self deferring
cross package function extpkg.A is resolved with one loader invocation
and the launch is flagged unsafe. -/
theorem C3_run_always_completes :
    (∀ (env : Env) (B fuel : Nat) (u : Unit0) (s : AState),
        BoundedParses env B → FreshParses env →
        unitNeed u + (B + 4) ≤ fuel → runUnit env fuel u s ≠ none)
    ∧ (analyzeGoroutine envReal3 99 goA3 state0).map (fun s => (s.diags, s.loadLog))
        = some ([(1, "goroutine created without panic recovery")], ["extpkg.A"]) := by
  constructor
  · intro env B fuel u s hB hF h
    exact runUnit_ne_none env B hB hF fuel u s h
  · exact rfl

/-- Witness for C3 at a concrete input: the run on the unit holding only
the self referential launch go extpkg.A() completes. -/
theorem C3_witness : runUnit envReal3 99 ⟨[], [goA3], []⟩ state0 ≠ none := by
  refine C3_run_always_completes.1 envReal3 7 99 ⟨[], [goA3], []⟩ state0 ?_ ?_ ?_
  · intro pos file hpf fd hfd body hb
    simp only [envReal3] at hpf
    split at hpf
    · cases hpf
      simp only [fileA3, List.mem_singleton] at hfd
      subst hfd
      simp only at hb
      cases hb
      decide
    · cases hpf
  · intro pos file hpf fd hfd body hb
    simp only [envReal3] at hpf
    split at hpf
    · cases hpf
      simp only [fileA3, List.mem_singleton] at hfd
      subst hfd
      simp only at hb
      cases hb
      decide
    · cases hpf
  · decide

end Recovercheck
